import Mathlib

/-!
# Verification of the MAE-QC frame-acquisition and hole-measurement core

This file is a shallow embedding, in Lean 4, of the parts of the MAE-QC
repository that the specification talks about:

* `src/processor.py` — the hole-measurement pipeline (`measure_holes`,
  `zoom_frame`, the `Hole` record and the `PIXELS_PER_MM` calibration
  constant).  Python floats are modelled as rationals; `np.pi` is modelled
  by the decimal value of the IEEE double that NumPy uses.  The OpenCV
  primitives (grayscale conversion, blur, adaptive threshold, morphology,
  `findContours`, `contourArea`, `arcLength`, `minEnclosingCircle`) are
  external library calls: a contour is therefore embedded as the record of
  the measurements those calls return for it, and the contour list is a
  parameter of the embedded `measure_holes`.
* `src/camera_rpicam.py` — the incremental MJPEG byte parser inside
  `CameraStream._reader_loop` (SOI/EOI scanning, garbage trimming, the
  2 MiB / 4 KiB runaway-buffer bound), embedded as a recursive function on
  byte lists.  JPEG decoding (`cv2.imdecode`) is an external call applied
  to each extracted byte segment; the embedding yields the segments.
* `src/camera.py` — the acquisition loop `CameraStream._loop`, embedded as
  an oracle-driven step function in which Python exceptions are explicit
  `Except` values, the `stop` methods of both backend wrappers, and the
  `fps` coercion in the constructor.
* the single-slot frame cache (`CameraStream.get_frame` in `src/camera.py`
  and `src/camera_rpicam.py`), embedded over an explicit heap so that the
  copy-on-read (`.copy()`) aliasing discipline is expressible.
-/

/-! ## Python numeric primitives -/

/-- Model of the Python built-in `int(x)` on a real (float) argument:
truncation toward zero. -/
def pyInt (q : ℚ) : ℤ :=
  if 0 ≤ q then ⌊q⌋ else ⌈q⌉

theorem pyInt_natCast (n : ℕ) : pyInt n = n := by
  simp [pyInt]

theorem pyInt_one_le (q : ℚ) (h : 1 ≤ q) : 1 ≤ pyInt q := by
  unfold pyInt
  rw [if_pos (le_trans zero_le_one h)]
  exact Int.le_floor.mpr (by exact_mod_cast h)

/-! ## Calibration and the hole-measurement pipeline (`src/processor.py`) -/

/-- Calibration constant from `processor.py`: `PIXELS_PER_MM = 13.75 / 0.701`. -/
def PIXELS_PER_MM : ℚ := 13.75 / 0.701

/-- Model of `np.pi`: the decimal value printed for the IEEE-754 double
that NumPy uses for π. -/
def npPi : ℚ := 3.141592653589793

theorem PIXELS_PER_MM_pos : 0 < PIXELS_PER_MM := by
  norm_num [PIXELS_PER_MM]

/-- Measurements that the OpenCV calls return for one external contour:
`cv2.contourArea`, `cv2.arcLength`, and the center and radius of
`cv2.minEnclosingCircle`. -/
structure Contour where
  area : ℚ
  peri : ℚ
  cx : ℚ
  cy : ℚ
  r : ℚ
deriving DecidableEq, Repr

/-- The `Hole` dataclass of `processor.py`. -/
structure Hole where
  cx : ℚ
  cy : ℚ
  diameter_mm : ℚ
  diameter_px : ℚ
deriving DecidableEq, Repr

/-- The filter chain applied to one contour in `measure_holes`
(`processor.py` lines 56-69): reject when `area <= 0`, when `peri <= 0`,
when `4 * np.pi * area / (peri * peri) < circularity_thresh`, or when the
minimum-enclosing-circle radius is outside
`[(min_d_mm * PIXELS_PER_MM) / 2, (max_d_mm * PIXELS_PER_MM) / 2]`. -/
def acceptContour (min_d_mm max_d_mm circularity_thresh : ℚ) (c : Contour) : Bool :=
  if c.area ≤ 0 then false
  else if c.peri ≤ 0 then false
  else if 4 * npPi * c.area / (c.peri * c.peri) < circularity_thresh then false
  else if c.r < (min_d_mm * PIXELS_PER_MM) / 2 ∨ c.r > (max_d_mm * PIXELS_PER_MM) / 2 then false
  else true

/-- The `Hole` record built for an accepted contour (`processor.py`
lines 71-73): `diameter_px = 2 * r`, `diameter_mm = diameter_px / PIXELS_PER_MM`. -/
def mkHole (c : Contour) : Hole :=
  { cx := c.cx
    cy := c.cy
    diameter_mm := 2 * c.r / PIXELS_PER_MM
    diameter_px := 2 * c.r }

/-- The sort key comparison of `holes.sort(key=lambda h: (h.cy, h.cx))`:
lexicographic order on the pair `(cy, cx)`. -/
def holeKeyLe (a b : Hole) : Bool :=
  decide (a.cy < b.cy ∨ (a.cy = b.cy ∧ a.cx ≤ b.cx))

/-- Stable insertion of a hole into an already sorted list: an element is
placed after every element whose key is less than or equal to its own, which
is exactly where a stable sort puts a later-discovered element. -/
def insertHole (x : Hole) : List Hole → List Hole
  | [] => [x]
  | y :: ys => if holeKeyLe y x then y :: insertHole x ys else x :: y :: ys

/-- Model of `holes.sort(key=lambda h: (h.cy, h.cx))`: Python `list.sort`
is a stable sort by the key, and a stable sort by a total preorder has a
unique result, here computed by stable insertion sort. -/
def sortHoles (l : List Hole) : List Hole :=
  l.foldr insertHole []

/-! Frames.  A frame is a row-major pixel matrix; the pixel payload (the
packed BGR value) is opaque to every claim, so a pixel is a natural. -/

/-- A pixel buffer as returned by the camera: rows of packed BGR pixels. -/
abbrev Img := List (List ℕ)

/-- Width of a frame, `frame.shape[1]`: the length of its first row. -/
def imgWidth (img : Img) : ℕ :=
  match img with
  | [] => 0
  | row :: _ => row.length

/-- A structurally valid pixel buffer: every row has the common width. -/
def ImgRect (img : Img) : Prop :=
  ∀ row ∈ img, row.length = imgWidth img

instance (img : Img) : Decidable (ImgRect img) := by
  unfold ImgRect; infer_instance

/-- Model of `cv2.resize(img, (w, h))`.  Each target pixel samples the
source at the proportional coordinate.  At equal source and target size
this is the identity, which is also what the bilinear interpolation of
OpenCV computes there, and the equal-size case is the only one the
repository reaches (`measure_holes` calls `zoom_frame` with factor 1). -/
def cvResize (img : Img) (w h : ℕ) : Img :=
  (List.range h).map fun i =>
    (List.range w).map fun j =>
      (img.getD (i * img.length / h) []).getD (j * imgWidth img / w) 0

/-- Model of `zoom_frame` (`processor.py` lines 15-25) for zoom factors
at least 1 (the repository uses the default 2.0 and the call-site value 1):
crop the centered `(w / zoom, h / zoom)` window and resize it back to
`(w, h)`. -/
def zoom_frame (frame : Img) (zoom_factor : ℚ) : Img :=
  let h := frame.length
  let w := imgWidth frame
  let new_w := (pyInt ((w : ℚ) / zoom_factor)).toNat
  let new_h := (pyInt ((h : ℚ) / zoom_factor)).toNat
  let x0 := (w - new_w) / 2
  let y0 := (h - new_h) / 2
  let cropped := ((frame.drop y0).take new_h).map fun row => (row.drop x0).take new_w
  cvResize cropped w h

/-- One iteration of the contour loop of `measure_holes`: an accepted
contour appends its `Hole` and draws its annotation (circle plus label,
`cv2.circle` / `cv2.putText`, modelled by the `draw` parameter) onto the
working image; a rejected contour leaves both untouched. -/
def measureStep (min_d_mm max_d_mm circularity_thresh : ℚ) (draw : Img → Contour → Img)
    (acc : List Hole × Img) (c : Contour) : List Hole × Img :=
  if acceptContour min_d_mm max_d_mm circularity_thresh c then
    (acc.1 ++ [mkHole c], draw acc.2 c)
  else acc

/-- Model of `measure_holes` (`processor.py` lines 27-81).  The OpenCV
segmentation (grayscale, blur, adaptive threshold, morphology,
`cv2.findContours`) is an external pipeline whose output is the contour
list `contours`; `draw` models the annotation primitives.  The function
zooms with factor 1, copies the frame, folds the filter over the contours
and finally sorts the holes by `(cy, cx)`. -/
def measure_holes (draw : Img → Contour → Img) (frame_bgr : Img) (contours : List Contour)
    (min_d_mm max_d_mm circularity_thresh : ℚ) : List Hole × Img :=
  let zoomed := zoom_frame frame_bgr 1
  let r := contours.foldl (measureStep min_d_mm max_d_mm circularity_thresh draw) ([], zoomed)
  (sortHoles r.1, r.2)

/-! ### Basic lemmas about the pipeline -/

theorem acceptContour_eq_true_iff (min_d_mm max_d_mm circularity_thresh : ℚ) (c : Contour) :
    acceptContour min_d_mm max_d_mm circularity_thresh c = true ↔
      (0 < c.area ∧ 0 < c.peri ∧
        circularity_thresh ≤ 4 * npPi * c.area / (c.peri * c.peri) ∧
        (min_d_mm * PIXELS_PER_MM) / 2 ≤ c.r ∧ c.r ≤ (max_d_mm * PIXELS_PER_MM) / 2) := by
  unfold acceptContour
  split_ifs with h1 h2 h3 h4
  · simp only [false_iff]
    intro h
    exact absurd h.1 (not_lt.mpr h1)
  · simp only [false_iff]
    intro h
    exact absurd h.2.1 (not_lt.mpr h2)
  · simp only [false_iff]
    intro h
    exact absurd h.2.2.1 (not_le.mpr h3)
  · simp only [false_iff]
    intro h
    rcases h4 with h4 | h4
    · exact absurd h.2.2.2.1 (not_le.mpr h4)
    · exact absurd h.2.2.2.2 (not_le.mpr h4)
  · simp only [true_iff]
    push_neg at h4
    exact ⟨not_le.mp h1, not_le.mp h2, not_lt.mp h3, h4.1, h4.2⟩

theorem measureStep_holes (p1 p2 p3 : ℚ) (draw : Img → Contour → Img)
    (acc : List Hole × Img) (c : Contour) :
    (measureStep p1 p2 p3 draw acc c).1 =
      acc.1 ++ (if acceptContour p1 p2 p3 c then [mkHole c] else []) := by
  unfold measureStep
  split_ifs <;> simp

/-- The hole component of the contour fold is `map mkHole` of the accepted
contours, appended to the accumulator. -/
theorem foldl_measureStep_holes (p1 p2 p3 : ℚ) (draw : Img → Contour → Img) :
    ∀ (contours : List Contour) (acc : List Hole × Img),
      (contours.foldl (measureStep p1 p2 p3 draw) acc).1 =
        acc.1 ++ (contours.filter (acceptContour p1 p2 p3)).map mkHole := by
  intro contours
  induction contours with
  | nil => intro acc; simp
  | cons c cs ih =>
    intro acc
    rw [List.foldl_cons, ih]
    rw [measureStep_holes]
    by_cases h : acceptContour p1 p2 p3 c = true
    · simp [List.filter_cons, h]
    · simp only [Bool.not_eq_true] at h
      simp [List.filter_cons, h]

theorem measure_holes_fst (draw : Img → Contour → Img) (frame : Img)
    (contours : List Contour) (p1 p2 p3 : ℚ) :
    (measure_holes draw frame contours p1 p2 p3).1 =
      sortHoles ((contours.filter (acceptContour p1 p2 p3)).map mkHole) := by
  show (sortHoles (contours.foldl (measureStep p1 p2 p3 draw) ([], zoom_frame frame 1)).1, _).1 = _
  rw [foldl_measureStep_holes]
  simp

/-! ### Sorting lemmas -/

/-- The hole ordering as a proposition: `a` may precede `b`. -/
def HoleLe (a b : Hole) : Prop :=
  a.cy < b.cy ∨ (a.cy = b.cy ∧ a.cx ≤ b.cx)

theorem holeKeyLe_iff (a b : Hole) : holeKeyLe a b = true ↔ HoleLe a b := by
  unfold holeKeyLe HoleLe
  exact decide_eq_true_iff

theorem holeLe_total (a b : Hole) : HoleLe a b ∨ HoleLe b a := by
  unfold HoleLe
  rcases lt_trichotomy a.cy b.cy with h | h | h
  · exact Or.inl (Or.inl h)
  · rcases le_total a.cx b.cx with h2 | h2
    · exact Or.inl (Or.inr ⟨h, h2⟩)
    · exact Or.inr (Or.inr ⟨h.symm, h2⟩)
  · exact Or.inr (Or.inl h)

theorem holeLe_trans {a b c : Hole} (h1 : HoleLe a b) (h2 : HoleLe b c) : HoleLe a c := by
  unfold HoleLe at *
  rcases h1 with h1 | ⟨h1, h1x⟩ <;> rcases h2 with h2 | ⟨h2, h2x⟩
  · exact Or.inl (lt_trans h1 h2)
  · exact Or.inl (h2 ▸ h1)
  · exact Or.inl (h1 ▸ h2)
  · exact Or.inr ⟨h1.trans h2, h1x.trans h2x⟩

theorem mem_insertHole (x z : Hole) (l : List Hole) :
    z ∈ insertHole x l ↔ z = x ∨ z ∈ l := by
  induction l with
  | nil => simp [insertHole]
  | cons y ys ih =>
    unfold insertHole
    split_ifs with h
    · simp only [List.mem_cons, ih]
      tauto
    · simp only [List.mem_cons]
      try tauto

theorem sorted_insertHole (x : Hole) (l : List Hole)
    (hl : l.Pairwise HoleLe) : (insertHole x l).Pairwise HoleLe := by
  induction l with
  | nil => simp [insertHole]
  | cons y ys ih =>
    rw [List.pairwise_cons] at hl
    unfold insertHole
    split_ifs with h
    · rw [List.pairwise_cons]
      refine ⟨?_, ih hl.2⟩
      intro z hz
      rcases (mem_insertHole x z ys).mp hz with hz | hz
      · exact hz ▸ (holeKeyLe_iff y x).mp h
      · exact hl.1 z hz
    · rw [List.pairwise_cons]
      constructor
      · intro z hz
        have hxy : HoleLe x y := by
          rcases holeLe_total x y with h2 | h2
          · exact h2
          · exact absurd ((holeKeyLe_iff y x).mpr h2) (by simp [h])
        rcases List.mem_cons.mp hz with hz | hz
        · exact hz ▸ hxy
        · exact holeLe_trans hxy (hl.1 z hz)
      · exact List.pairwise_cons.mpr hl

theorem sorted_sortHoles (l : List Hole) : (sortHoles l).Pairwise HoleLe := by
  induction l with
  | nil => simp [sortHoles]
  | cons x xs ih =>
    unfold sortHoles at *
    exact sorted_insertHole x _ ih

theorem mem_sortHoles (z : Hole) (l : List Hole) : z ∈ sortHoles l ↔ z ∈ l := by
  induction l with
  | nil => simp [sortHoles]
  | cons x xs ih =>
    unfold sortHoles at *
    rw [List.foldr_cons, mem_insertHole, ih, List.mem_cons]

/-! ### The zoom with factor 1 is the identity on valid frames -/

theorem map_range_getD {α : Type} (l : List α) (d : α) :
    (List.range l.length).map (fun i => l.getD i d) = l := by
  apply List.ext_getElem
  · simp
  · intro i h1 h2
    simp only [List.getElem_map, List.getElem_range]
    rw [List.getD_eq_getElem?_getD, List.getElem?_eq_getElem h2]
    rfl

theorem row_resample (row : List ℕ) (w : ℕ) (hw : row.length = w) :
    (List.range w).map (fun j => row.getD (j * w / w) 0) = row := by
  rcases Nat.eq_zero_or_pos w with h0 | hpos
  · subst h0
    simp only [List.range_zero, List.map_nil]
    exact (List.length_eq_zero.mp hw).symm
  · have : ∀ j : ℕ, j * w / w = j := fun j => Nat.mul_div_cancel j hpos
    simp only [this]
    rw [← hw]
    exact map_range_getD row 0

theorem cvResize_self (img : Img) (hrect : ImgRect img) :
    cvResize img (imgWidth img) img.length = img := by
  unfold cvResize
  rcases Nat.eq_zero_or_pos img.length with h0 | hpos
  · rw [h0]
    simp only [List.range_zero, List.map_nil]
    exact (List.length_eq_zero.mp h0).symm
  · apply List.ext_getElem
    · simp
    · intro i h1 h2
      simp only [List.getElem_map, List.getElem_range]
      rw [Nat.mul_div_cancel i hpos]
      have hi : img.getD i [] = img[i] := by
        rw [List.getD_eq_getElem?_getD, List.getElem?_eq_getElem h2]
        rfl
      rw [hi]
      exact row_resample img[i] (imgWidth img) (hrect img[i] (List.getElem_mem h2))

theorem take_row_eq (w : ℕ) (row : List ℕ) (hw : row.length = w) : row.take w = row := by
  rw [← hw]
  exact List.take_length row

theorem zoom_frame_one (frame : Img) (hrect : ImgRect frame) :
    zoom_frame frame 1 = frame := by
  unfold zoom_frame
  have hw : (pyInt ((imgWidth frame : ℚ) / 1)).toNat = imgWidth frame := by
    rw [div_one, pyInt_natCast]
    exact Int.toNat_natCast _
  have hh : (pyInt ((frame.length : ℚ) / 1)).toNat = frame.length := by
    rw [div_one, pyInt_natCast]
    exact Int.toNat_natCast _
  simp only [hw, hh, Nat.sub_self, Nat.zero_div, List.drop_zero]
  rw [List.take_length]
  have hcrop : frame.map (fun row => row.take (imgWidth frame)) = frame := by
    conv_rhs => rw [← List.map_id frame]
    apply List.map_congr_left
    intro row hrow
    simp only [id]
    exact take_row_eq _ row (hrect row hrow)
  rw [hcrop]
  exact cvResize_self frame hrect

theorem foldl_measureStep_none (p1 p2 p3 : ℚ) (draw : Img → Contour → Img) :
    ∀ (contours : List Contour) (acc : List Hole × Img),
      (∀ c ∈ contours, acceptContour p1 p2 p3 c = false) →
      contours.foldl (measureStep p1 p2 p3 draw) acc = acc := by
  intro contours
  induction contours with
  | nil => intro acc _; rfl
  | cons c cs ih =>
    intro acc hall
    rw [List.foldl_cons]
    have hc : acceptContour p1 p2 p3 c = false := hall c (List.mem_cons_self c cs)
    have hstep : measureStep p1 p2 p3 draw acc c = acc := by
      unfold measureStep
      rw [hc]
      simp
    rw [hstep]
    exact ih acc fun d hd => hall d (List.mem_cons_of_mem c hd)

/-- C1: in `measure_holes` an extracted contour produces a `Hole` exactly
when its area and perimeter are strictly positive, its circularity
`4·π·area / perimeter²` is at least the threshold, and its
minimum-enclosing-circle radius lies inside the inclusive pixel-radius
bounds derived from the millimeter diameter bounds: the acceptance test is
equivalent to that conjunction, and the returned hole list is exactly the
sorted image of the accepted contours under `mkHole`. -/
theorem claim1_contour_filter :
    (∀ (min_d_mm max_d_mm circularity_thresh : ℚ) (c : Contour),
      acceptContour min_d_mm max_d_mm circularity_thresh c = true ↔
        (0 < c.area ∧ 0 < c.peri ∧
          circularity_thresh ≤ 4 * npPi * c.area / (c.peri * c.peri) ∧
          (min_d_mm * PIXELS_PER_MM) / 2 ≤ c.r ∧ c.r ≤ (max_d_mm * PIXELS_PER_MM) / 2)) ∧
    (∀ (draw : Img → Contour → Img) (frame : Img) (contours : List Contour) (p1 p2 p3 : ℚ),
      (measure_holes draw frame contours p1 p2 p3).1 =
        sortHoles ((contours.filter (acceptContour p1 p2 p3)).map mkHole)) :=
  ⟨acceptContour_eq_true_iff, measure_holes_fst⟩

/-- C2: every `Hole` returned by `measure_holes` comes from an accepted
contour and records `diameter_px = 2 · r` and
`diameter_mm = diameter_px / PIXELS_PER_MM`; in particular a detection of
pixel radius `r` at the calibration scale yields
`diameter_mm = 2 · r / PIXELS_PER_MM`. -/
theorem claim2_diameters :
    (∀ (draw : Img → Contour → Img) (frame : Img) (contours : List Contour) (p1 p2 p3 : ℚ)
      (h : Hole), h ∈ (measure_holes draw frame contours p1 p2 p3).1 →
      ∃ c, c ∈ contours ∧ acceptContour p1 p2 p3 c = true ∧ h = mkHole c ∧
        h.diameter_px = 2 * c.r ∧ h.diameter_mm = h.diameter_px / PIXELS_PER_MM) ∧
    (∀ c : Contour, (mkHole c).diameter_px = 2 * c.r ∧
      (mkHole c).diameter_mm = 2 * c.r / PIXELS_PER_MM) := by
  constructor
  · intro draw frame contours p1 p2 p3 h hmem
    rw [measure_holes_fst, mem_sortHoles] at hmem
    obtain ⟨c, hc, hch⟩ := List.mem_map.mp hmem
    obtain ⟨hcmem, hacc⟩ := List.mem_filter.mp hc
    exact ⟨c, hcmem, hacc, hch.symm, by rw [← hch]; rfl, by rw [← hch]; rfl⟩
  · intro c
    exact ⟨rfl, rfl⟩

/-- Witness for C2: a single contour of radius 50 px (area 7854, perimeter
314) passes the filter and its hole records the stated diameters. -/
theorem claim2_diameters_witness :
    ∃ c, c ∈ [Contour.mk 7854 314 10 20 50] ∧ acceptContour 5 100 (7/10) c = true ∧
      mkHole (Contour.mk 7854 314 10 20 50) = mkHole c ∧
      (mkHole (Contour.mk 7854 314 10 20 50)).diameter_px = 2 * c.r ∧
      (mkHole (Contour.mk 7854 314 10 20 50)).diameter_mm =
        (mkHole (Contour.mk 7854 314 10 20 50)).diameter_px / PIXELS_PER_MM := by
  apply claim2_diameters.1 (fun i _ => i) [] [Contour.mk 7854 314 10 20 50] 5 100 (7/10)
  rw [measure_holes_fst, mem_sortHoles]
  have hacc : acceptContour 5 100 (7/10) (Contour.mk 7854 314 10 20 50) = true := by
    norm_num [acceptContour, npPi, PIXELS_PER_MM]
  simp [List.filter_cons, hacc]

/-- C3: the hole list returned by `measure_holes` is always sorted by
`(center_y, center_x)` ascending, whatever the contour discovery order;
in particular contours discovered at centers (y, x) = (50,50), (10,10),
(10,90) come back ordered (10,10), (10,90), (50,50). -/
theorem claim3_ordering :
    (∀ (draw : Img → Contour → Img) (frame : Img) (contours : List Contour) (p1 p2 p3 : ℚ),
      (measure_holes draw frame contours p1 p2 p3).1.Pairwise HoleLe) ∧
    ((measure_holes (fun i _ => i) []
        [Contour.mk 7854 314 50 50 50, Contour.mk 7854 314 10 10 50,
          Contour.mk 7854 314 90 10 50] 5 100 (7/10)).1.map
        (fun h => (h.cy, h.cx)) = [(10, 10), (10, 90), (50, 50)]) := by
  constructor
  · intro draw frame contours p1 p2 p3
    rw [measure_holes_fst]
    exact sorted_sortHoles _
  · rw [measure_holes_fst]
    have h1 : acceptContour 5 100 (7/10) (Contour.mk 7854 314 50 50 50) = true := by
      norm_num [acceptContour, npPi, PIXELS_PER_MM]
    have h2 : acceptContour 5 100 (7/10) (Contour.mk 7854 314 10 10 50) = true := by
      norm_num [acceptContour, npPi, PIXELS_PER_MM]
    have h3 : acceptContour 5 100 (7/10) (Contour.mk 7854 314 90 10 50) = true := by
      norm_num [acceptContour, npPi, PIXELS_PER_MM]
    simp only [List.filter_cons, h1, h2, h3, List.filter_nil, if_pos, List.map_cons,
      List.map_nil]
    norm_num [sortHoles, insertHole, holeKeyLe, mkHole]

/-- C8: on a structurally valid frame in which no contour passes the
filters, `measure_holes` returns the empty hole list together with an
annotated frame that is pixel-for-pixel the input frame; the embedding is
a pure function of the input frame, which is therefore left unmutated. -/
theorem claim8_no_detection (draw : Img → Contour → Img) (frame : Img)
    (contours : List Contour) (p1 p2 p3 : ℚ)
    (hrect : ImgRect frame)
    (hnone : ∀ c ∈ contours, acceptContour p1 p2 p3 c = false) :
    measure_holes draw frame contours p1 p2 p3 = ([], frame) := by
  show (sortHoles (contours.foldl (measureStep p1 p2 p3 draw) ([], zoom_frame frame 1)).1,
      (contours.foldl (measureStep p1 p2 p3 draw) ([], zoom_frame frame 1)).2) = ([], frame)
  rw [zoom_frame_one frame hrect]
  rw [foldl_measureStep_none p1 p2 p3 draw contours ([], frame) hnone]
  rfl

/-- Witness for C8: a 2×2 frame with one degenerate contour (area 0) comes
back unchanged with no holes. -/
theorem claim8_no_detection_witness :
    measure_holes (fun i _ => i) [[1, 2], [3, 4]] [Contour.mk 0 0 0 0 0] 5 100 (7/10) =
      ([], [[1, 2], [3, 4]]) := by
  apply claim8_no_detection
  · decide
  · intro c hc
    rw [List.mem_singleton] at hc
    subst hc
    norm_num [acceptContour]

/-! ## The MJPEG streaming parser (`src/camera_rpicam.py`, `_reader_loop`)

The reader loop appends each chunk read from the child process to the
accumulator `self._buf` and then repeatedly scans for the JPEG
start-of-image marker `0xFFD8` and end-of-image marker `0xFFD9`
(lines 155-192).  Bytes are naturals below 256; the marker values 255, 216
and 217 are written in decimal. -/

/-- Occurrence of the two-byte pattern `b1 b2` at index `i` of `l`. -/
def pairAt (b1 b2 : ℕ) (l : List ℕ) (i : ℕ) : Prop :=
  l[i]? = some b1 ∧ l[i + 1]? = some b2

instance (b1 b2 : ℕ) (l : List ℕ) (i : ℕ) : Decidable (pairAt b1 b2 l i) := by
  unfold pairAt; infer_instance

/-- Model of `bytes.find(pat)` for a two-byte pattern: index of the first
occurrence, `none` when there is none (Python returns -1). -/
def findPair (b1 b2 : ℕ) : List ℕ → Option ℕ
  | x :: y :: rest =>
    if x = b1 ∧ y = b2 then some 0 else (findPair b1 b2 (y :: rest)).map (· + 1)
  | _ => none

/-- Model of `bytes.find(pat, start)`: first occurrence at index `start`
or later. -/
def findFrom (b1 b2 : ℕ) (start : ℕ) (l : List ℕ) : Option ℕ :=
  (findPair b1 b2 (l.drop start)).map (· + start)

theorem pairAt_cons_succ (b1 b2 x : ℕ) (l : List ℕ) (i : ℕ) :
    pairAt b1 b2 (x :: l) (i + 1) ↔ pairAt b1 b2 l i := by
  unfold pairAt
  simp

theorem pairAt_cons_zero (b1 b2 x y : ℕ) (l : List ℕ) :
    pairAt b1 b2 (x :: y :: l) 0 ↔ x = b1 ∧ y = b2 := by
  unfold pairAt
  simp [eq_comm]

theorem pairAt_bound {b1 b2 : ℕ} {l : List ℕ} {i : ℕ} (h : pairAt b1 b2 l i) :
    i + 2 ≤ l.length := by
  have := h.2
  have hlt : i + 1 < l.length := by
    by_contra hge
    rw [List.getElem?_eq_none (le_of_not_lt hge)] at this
    exact Option.noConfusion this
  omega

theorem findPair_eq_none_iff (b1 b2 : ℕ) (l : List ℕ) :
    findPair b1 b2 l = none ↔ ∀ i, ¬ pairAt b1 b2 l i := by
  induction l with
  | nil =>
    simp only [findPair, true_iff]
    intro i h
    have := pairAt_bound h
    simp at this
  | cons x rest ih =>
    match rest with
    | [] =>
      simp only [findPair, true_iff]
      intro i h
      have := pairAt_bound h
      simp at this
    | y :: t =>
      rw [show findPair b1 b2 (x :: y :: t) =
          (if x = b1 ∧ y = b2 then some 0 else (findPair b1 b2 (y :: t)).map (· + 1)) from rfl]
      split_ifs with hxy
      · constructor
        · intro h
          simp at h
        · intro hall
          exact absurd ((pairAt_cons_zero b1 b2 x y t).mpr hxy) (hall 0)
      · rw [Option.map_eq_none']
        rw [ih]
        constructor
        · intro hall i hp
          match i with
          | 0 => exact hxy ((pairAt_cons_zero b1 b2 x y t).mp hp)
          | j + 1 => exact hall j ((pairAt_cons_succ b1 b2 x (y :: t) j).mp hp)
        · intro hall i hp
          exact hall (i + 1) ((pairAt_cons_succ b1 b2 x (y :: t) i).mpr hp)

theorem findPair_eq_some_iff (b1 b2 : ℕ) (l : List ℕ) (k : ℕ) :
    findPair b1 b2 l = some k ↔
      pairAt b1 b2 l k ∧ ∀ i, i < k → ¬ pairAt b1 b2 l i := by
  induction l generalizing k with
  | nil =>
    simp only [findPair]
    constructor
    · intro h
      simp at h
    · intro h
      have := pairAt_bound h.1
      simp at this
  | cons x rest ih =>
    match rest with
    | [] =>
      simp only [findPair]
      constructor
      · intro h
        simp at h
      · intro h
        have := pairAt_bound h.1
        simp at this
    | y :: t =>
      rw [show findPair b1 b2 (x :: y :: t) =
          (if x = b1 ∧ y = b2 then some 0 else (findPair b1 b2 (y :: t)).map (· + 1)) from rfl]
      split_ifs with hxy
      · constructor
        · intro h
          have hk : k = 0 := by
            injection h with h
            omega
          subst hk
          exact ⟨(pairAt_cons_zero b1 b2 x y t).mpr hxy,
            fun i hi => absurd hi (Nat.not_lt_zero i)⟩
        · intro ⟨hp, hmin⟩
          match k with
          | 0 => rfl
          | j + 1 =>
            exact absurd ((pairAt_cons_zero b1 b2 x y t).mpr hxy) (hmin 0 (Nat.succ_pos j))
      · constructor
        · intro h
          obtain ⟨j, hj, hjk⟩ := Option.map_eq_some'.mp h
          subst hjk
          obtain ⟨hp, hmin⟩ := (ih j).mp hj
          refine ⟨(pairAt_cons_succ b1 b2 x (y :: t) j).mpr hp, ?_⟩
          intro i hi
          match i with
          | 0 =>
            rw [pairAt_cons_zero]
            exact hxy
          | m + 1 =>
            rw [pairAt_cons_succ]
            exact hmin m (by omega)
        · intro ⟨hp, hmin⟩
          match k with
          | 0 => exact absurd ((pairAt_cons_zero b1 b2 x y t).mp hp) hxy
          | j + 1 =>
            rw [Option.map_eq_some']
            refine ⟨j, (ih j).mpr ⟨(pairAt_cons_succ b1 b2 x (y :: t) j).mp hp, ?_⟩, rfl⟩
            intro i hi
            intro hcon
            exact hmin (i + 1) (by omega) ((pairAt_cons_succ b1 b2 x (y :: t) i).mpr hcon)

theorem pairAt_drop (b1 b2 : ℕ) (l : List ℕ) (s i : ℕ) :
    pairAt b1 b2 (l.drop s) i ↔ pairAt b1 b2 l (s + i) := by
  unfold pairAt
  rw [List.getElem?_drop, List.getElem?_drop]
  constructor
  · intro ⟨h1, h2⟩
    refine ⟨h1, ?_⟩
    rw [show s + i + 1 = s + (i + 1) by omega]
    exact h2
  · intro ⟨h1, h2⟩
    refine ⟨h1, ?_⟩
    rw [show s + (i + 1) = s + i + 1 by omega]
    exact h2

theorem findFrom_eq_none_iff (b1 b2 s : ℕ) (l : List ℕ) :
    findFrom b1 b2 s l = none ↔ ∀ i, s ≤ i → ¬ pairAt b1 b2 l i := by
  unfold findFrom
  rw [Option.map_eq_none', findPair_eq_none_iff]
  constructor
  · intro h i hsi hp
    have := (pairAt_drop b1 b2 l s (i - s)).mpr (by rwa [show s + (i - s) = i by omega])
    exact h (i - s) this
  · intro h i hp
    exact h (s + i) (by omega) ((pairAt_drop b1 b2 l s i).mp hp)

theorem findFrom_eq_some_iff (b1 b2 s : ℕ) (l : List ℕ) (k : ℕ) :
    findFrom b1 b2 s l = some k ↔
      s ≤ k ∧ pairAt b1 b2 l k ∧ ∀ i, s ≤ i → i < k → ¬ pairAt b1 b2 l i := by
  unfold findFrom
  rw [Option.map_eq_some']
  constructor
  · intro ⟨j, hj, hjk⟩
    obtain ⟨hp, hmin⟩ := (findPair_eq_some_iff b1 b2 (l.drop s) j).mp hj
    subst hjk
    refine ⟨by omega, by rw [show j + s = s + j by omega]; exact (pairAt_drop b1 b2 l s j).mp hp, ?_⟩
    intro i hsi hik hcon
    have := (pairAt_drop b1 b2 l s (i - s)).mpr (by rwa [show s + (i - s) = i by omega])
    exact hmin (i - s) (by omega) this
  · intro ⟨hsk, hp, hmin⟩
    refine ⟨k - s, (findPair_eq_some_iff b1 b2 (l.drop s) (k - s)).mpr ⟨?_, ?_⟩, by omega⟩
    · rw [pairAt_drop, show s + (k - s) = k by omega]
      exact hp
    · intro i hik hcon
      rw [pairAt_drop] at hcon
      exact hmin (s + i) (by omega) (by omega) hcon

/-- One full pass of the inner marker-scanning loop of `_reader_loop`
(`camera_rpicam.py` lines 155-192), run after a chunk has been appended:
while a start-of-image marker exists, look for the end-of-image marker
after it; with both present, the slice from start through end inclusive is
one extracted frame, removed (with everything before it) from the
accumulator; with only the start present, discard the bytes preceding it
and stop; with no start present, stop, first cutting the accumulator to
its last 4096 bytes when it exceeds 2 MiB.  The extracted byte segments
are returned in extraction order; decoding them (`cv2.imdecode`) is an
external call downstream of this loop. -/
def parseLoop (buf : List ℕ) : List ℕ × List (List ℕ) :=
  match hs : findFrom 255 216 0 buf with
  | none =>
    (if 2 * 1024 * 1024 < buf.length then buf.drop (buf.length - 4096) else buf, [])
  | some soi =>
    match he : findFrom 255 217 (soi + 2) buf with
    | none => (buf.drop soi, [])
    | some eoi =>
      let rest := parseLoop (buf.drop (eoi + 2))
      (rest.1, (buf.take (eoi + 2)).drop soi :: rest.2)
termination_by buf.length
decreasing_by
  have h1 := (findFrom_eq_some_iff 255 217 (soi + 2) buf eoi).mp he
  have h2 := pairAt_bound h1.2.1
  simp only [List.length_drop]
  omega


/-- Appending one chunk read from the child process (line 146) and running
the scanning loop: the parser state is the accumulator together with the
frames extracted so far. -/
def feedChunk (st : List ℕ × List (List ℕ)) (chunk : List ℕ) : List ℕ × List (List ℕ) :=
  ((parseLoop (st.1 ++ chunk)).1, st.2 ++ (parseLoop (st.1 ++ chunk)).2)

/-- Feeding a sequence of chunks to a parser whose accumulator starts
empty, as when the reader loop starts. -/
def feedAll (chunks : List (List ℕ)) : List ℕ × List (List ℕ) :=
  chunks.foldl feedChunk ([], [])

/-- A well-formed JPEG byte sequence as emitted by an MJPEG encoder: it
opens with the start-of-image marker FFD8, closes with the end-of-image
marker FFD9, and contains no other occurrence of either marker (the
entropy-coded payload escapes FF bytes and stream frames embed no
thumbnails). -/
def WFJpeg (j : List ℕ) : Prop :=
  4 ≤ j.length ∧ j.take 2 = [255, 216] ∧
    findPair 255 216 (j.drop 1) = none ∧
    findPair 255 217 j = some (j.length - 2)

instance (j : List ℕ) : Decidable (WFJpeg j) := by
  unfold WFJpeg; infer_instance

/-! ### Consequences of well-formedness -/

theorem WFJpeg_get0 {j : List ℕ} (hj : WFJpeg j) : j[0]? = some 255 := by
  have h := hj.2.1
  have : (j.take 2)[0]? = some 255 := by rw [h]; rfl
  rw [List.getElem?_take] at this
  rwa [if_pos (by omega)] at this

theorem WFJpeg_get1 {j : List ℕ} (hj : WFJpeg j) : j[1]? = some 216 := by
  have h := hj.2.1
  have : (j.take 2)[1]? = some 216 := by rw [h]; rfl
  rw [List.getElem?_take] at this
  rwa [if_pos (by omega)] at this

theorem WFJpeg_soi_zero {j : List ℕ} (hj : WFJpeg j) : pairAt 255 216 j 0 :=
  ⟨WFJpeg_get0 hj, WFJpeg_get1 hj⟩

theorem WFJpeg_noSOI_pos {j : List ℕ} (hj : WFJpeg j) :
    ∀ i, 1 ≤ i → ¬ pairAt 255 216 j i := by
  intro i hi hp
  have hnone := (findPair_eq_none_iff 255 216 (j.drop 1)).mp hj.2.2.1
  have : pairAt 255 216 (j.drop 1) (i - 1) := by
    rw [pairAt_drop]
    rwa [show 1 + (i - 1) = i by omega]
  exact hnone (i - 1) this

theorem WFJpeg_eoi {j : List ℕ} (hj : WFJpeg j) : pairAt 255 217 j (j.length - 2) :=
  ((findPair_eq_some_iff 255 217 j (j.length - 2)).mp hj.2.2.2).1

theorem WFJpeg_noEOI_before {j : List ℕ} (hj : WFJpeg j) :
    ∀ i, i < j.length - 2 → ¬ pairAt 255 217 j i :=
  ((findPair_eq_some_iff 255 217 j (j.length - 2)).mp hj.2.2.2).2

/-! ### Occurrences across list operations -/

theorem pairAt_append_cases {b1 b2 : ℕ} {xs ys : List ℕ} {i : ℕ}
    (h : pairAt b1 b2 (xs ++ ys) i) :
    pairAt b1 b2 xs i ∨
      (i + 1 = xs.length ∧ xs[i]? = some b1 ∧ ys[0]? = some b2) ∨
      (xs.length ≤ i ∧ pairAt b1 b2 ys (i - xs.length)) := by
  obtain ⟨h1, h2⟩ := h
  rcases lt_trichotomy (i + 1) xs.length with hlt | heq | hgt
  · left
    rw [List.getElem?_append_left (by omega)] at h1
    rw [List.getElem?_append_left hlt] at h2
    exact ⟨h1, h2⟩
  · right; left
    rw [List.getElem?_append_left (by omega)] at h1
    rw [List.getElem?_append_right (by omega)] at h2
    rw [show i + 1 - xs.length = 0 by omega] at h2
    exact ⟨heq, h1, h2⟩
  · right; right
    have hxs : xs.length ≤ i := by omega
    rw [List.getElem?_append_right hxs] at h1
    rw [List.getElem?_append_right (by omega)] at h2
    rw [show i + 1 - xs.length = i - xs.length + 1 by omega] at h2
    exact ⟨hxs, h1, h2⟩

theorem pairAt_append_right {b1 b2 : ℕ} (xs : List ℕ) {ys : List ℕ} {i : ℕ}
    (h : pairAt b1 b2 ys i) : pairAt b1 b2 (xs ++ ys) (xs.length + i) := by
  obtain ⟨h1, h2⟩ := h
  constructor
  · rw [List.getElem?_append_right (by omega), show xs.length + i - xs.length = i by omega]
    exact h1
  · rw [List.getElem?_append_right (by omega), show xs.length + i + 1 - xs.length = i + 1 by omega]
    exact h2

theorem pairAt_of_take {b1 b2 : ℕ} {l : List ℕ} {n i : ℕ}
    (h : pairAt b1 b2 (l.take n) i) : pairAt b1 b2 l i ∧ i + 2 ≤ n := by
  have hb := pairAt_bound h
  rw [List.length_take] at hb
  obtain ⟨h1, h2⟩ := h
  rw [List.getElem?_take, if_pos (by omega)] at h1
  rw [List.getElem?_take, if_pos (by omega)] at h2
  exact ⟨⟨h1, h2⟩, by omega⟩

/-! ### Branch equations for the scanning loop -/

theorem parseLoop_eq_none {buf : List ℕ} (h : findFrom 255 216 0 buf = none) :
    parseLoop buf =
      (if 2 * 1024 * 1024 < buf.length then buf.drop (buf.length - 4096) else buf, []) := by
  rw [parseLoop.eq_def]
  split
  · rfl
  · rename_i soi hs
    rw [h] at hs
    exact Option.noConfusion hs

theorem parseLoop_eq_noEOI {buf : List ℕ} {soi : ℕ}
    (h1 : findFrom 255 216 0 buf = some soi)
    (h2 : findFrom 255 217 (soi + 2) buf = none) :
    parseLoop buf = (buf.drop soi, []) := by
  rw [parseLoop.eq_def]
  split
  · rename_i hs
    rw [h1] at hs
    exact Option.noConfusion hs
  · rename_i soi2 hs
    rw [h1] at hs
    injection hs with hs
    subst hs
    split
    · rfl
    · rename_i eoi he
      rw [h2] at he
      exact Option.noConfusion he

theorem parseLoop_eq_frame {buf : List ℕ} {soi eoi : ℕ}
    (h1 : findFrom 255 216 0 buf = some soi)
    (h2 : findFrom 255 217 (soi + 2) buf = some eoi) :
    parseLoop buf =
      ((parseLoop (buf.drop (eoi + 2))).1,
        (buf.take (eoi + 2)).drop soi :: (parseLoop (buf.drop (eoi + 2))).2) := by
  rw [parseLoop.eq_def]
  split
  · rename_i hs
    rw [h1] at hs
    exact Option.noConfusion hs
  · rename_i soi2 hs
    rw [h1] at hs
    injection hs with hs
    subst hs
    split
    · rename_i he
      rw [h2] at he
      exact Option.noConfusion he
    · rename_i eoi2 he
      rw [h2] at he
      injection he with he
      subst he
      rfl

/-- With no start-of-image marker anywhere in the accumulator, the pass
extracts nothing and applies the 2 MiB / 4 KiB trim rule. -/
theorem parseLoop_noSOI {l : List ℕ} (h : ∀ i, ¬ pairAt 255 216 l i) :
    parseLoop l =
      (if 2 * 1024 * 1024 < l.length then l.drop (l.length - 4096) else l, []) :=
  parseLoop_eq_none ((findFrom_eq_none_iff 255 216 0 l).mpr fun i _ => h i)

/-- A marker-free lead-in followed by a proper initial segment (length at
least 2, no end marker) of a frame: the pass discards the lead-in, keeps
the partial frame and extracts nothing. -/
theorem parseLoop_headOnly {S P : List ℕ}
    (hS : ∀ i, ¬ pairAt 255 216 S i)
    (hP0 : P[0]? = some 255) (hP1 : P[1]? = some 216)
    (hnoEOI : ∀ i, ¬ pairAt 255 217 P i) :
    parseLoop (S ++ P) = (P, []) := by
  have hsoi : findFrom 255 216 0 (S ++ P) = some S.length := by
    rw [findFrom_eq_some_iff]
    refine ⟨Nat.zero_le _, ?_, ?_⟩
    · have := @pairAt_append_right 255 216 S P 0 ⟨hP0, hP1⟩
      rwa [Nat.add_zero] at this
    · intro i _ hik hp
      rcases pairAt_append_cases hp with hc | ⟨hlen, hx, hy⟩ | ⟨hge, hc⟩
      · exact hS i hc
      · rw [hP0] at hy
        exact absurd (Option.some.inj hy) (by omega)
      · omega
  have heoi : findFrom 255 217 (S.length + 2) (S ++ P) = none := by
    rw [findFrom_eq_none_iff]
    intro i hi hp
    rcases pairAt_append_cases hp with hc | ⟨hlen, _, _⟩ | ⟨hge, hc⟩
    · have := pairAt_bound hc
      omega
    · omega
    · exact hnoEOI (i - S.length) hc
  rw [parseLoop_eq_noEOI hsoi heoi, List.drop_left]

/-- A marker-free lead-in followed by one complete well-formed frame: the
pass extracts exactly that frame and empties the accumulator. -/
theorem parseLoop_complete {S j : List ℕ}
    (hS : ∀ i, ¬ pairAt 255 216 S i) (hj : WFJpeg j) :
    parseLoop (S ++ j) = ([], [j]) := by
  have hlen4 : 4 ≤ j.length := hj.1
  have hsoi : findFrom 255 216 0 (S ++ j) = some S.length := by
    rw [findFrom_eq_some_iff]
    refine ⟨Nat.zero_le _, ?_, ?_⟩
    · have := pairAt_append_right S (WFJpeg_soi_zero hj)
      rwa [Nat.add_zero] at this
    · intro i _ hik hp
      rcases pairAt_append_cases hp with hc | ⟨hlen, hx, hy⟩ | ⟨hge, hc⟩
      · exact hS i hc
      · rw [WFJpeg_get0 hj] at hy
        exact absurd (Option.some.inj hy) (by omega)
      · omega
  have heoi : findFrom 255 217 (S.length + 2) (S ++ j) =
      some (S.length + (j.length - 2)) := by
    rw [findFrom_eq_some_iff]
    refine ⟨by omega, pairAt_append_right S (WFJpeg_eoi hj), ?_⟩
    intro i hi hik hp
    rcases pairAt_append_cases hp with hc | ⟨hlen, _, _⟩ | ⟨hge, hc⟩
    · have := pairAt_bound hc
      omega
    · omega
    · exact WFJpeg_noEOI_before hj (i - S.length) (by omega) hc
  rw [parseLoop_eq_frame hsoi heoi]
  have hdropall : (S ++ j).drop (S.length + (j.length - 2) + 2) = [] := by
    apply List.drop_eq_nil_of_le
    rw [List.length_append]
    omega
  rw [hdropall]
  have hnil : ∀ i, ¬ pairAt 255 216 ([] : List ℕ) i := by
    intro i hp
    have := pairAt_bound hp
    simp at this
  have hempty : parseLoop [] = ([], []) := by
    rw [parseLoop_noSOI hnil]
    simp
  rw [hempty]
  have htake : (S ++ j).take (S.length + (j.length - 2) + 2) = S ++ j := by
    apply List.take_of_length_le
    rw [List.length_append]
    omega
  rw [htake, List.drop_left]

/-! ### Feeding chunked input through the parser -/

theorem take_append_add (A B : List ℕ) (i : ℕ) :
    (A ++ B).take (A.length + i) = A ++ B.take i := by
  rw [List.take_append_eq_append_take]
  rw [List.take_of_length_le (by omega)]
  congr 2
  omega

theorem take_extend {g c rest : List ℕ} {m : ℕ}
    (hm : m ≤ g.length) (h : g.take m ++ (c ++ rest) = g) :
    g.take (m + c.length) = g.take m ++ c := by
  have hlen : (g.take m).length = m := by
    rw [List.length_take]
    omega
  conv_lhs => rw [← h]
  rw [show m + c.length = (g.take m).length + c.length by rw [hlen]]
  rw [take_append_add]
  congr 1
  exact List.take_left c rest

theorem drop_append_le (A B : List ℕ) (d : ℕ) (hd : d ≤ A.length) :
    (A ++ B).drop d = A.drop d ++ B := by
  rw [List.drop_append_eq_append_drop, show d - A.length = 0 by omega, List.drop_zero]

theorem noSOI_segment {g : List ℕ} (hg : ∀ i, ¬ pairAt 255 216 g i) (m d : ℕ) :
    ∀ i, ¬ pairAt 255 216 ((g.take m).drop d) i := by
  intro i hp
  rw [pairAt_drop] at hp
  exact hg (d + i) (pairAt_of_take hp).1

theorem flatten_ne_nil {cs : List (List ℕ)} (h1 : cs ≠ []) (h2 : ∀ c ∈ cs, c ≠ []) :
    cs.flatten ≠ [] := by
  match cs with
  | [] => exact absurd rfl h1
  | c :: t =>
    rw [List.flatten_cons]
    intro hcon
    exact h2 c (List.mem_cons_self c t) (List.append_eq_nil.mp hcon).1

set_option maxRecDepth 4000 in
/-- Feeding chunks of marker-free garbage: the accumulator always remains
a contiguous recent segment of the garbage and no frame is ever
extracted. -/
theorem feed_garbage {g : List ℕ} (hg : ∀ i, ¬ pairAt 255 216 g i) :
    ∀ (cs : List (List ℕ)) (m d : ℕ) (F : List (List ℕ)),
      d ≤ m → m ≤ g.length → g.take m ++ cs.flatten = g →
      ∃ e, List.foldl feedChunk ((g.take m).drop d, F) cs = (g.drop e, F) := by
  intro cs
  induction cs with
  | nil =>
    intro m d F hdm hmg h
    simp only [List.flatten_nil, List.append_nil] at h
    refine ⟨d, ?_⟩
    simp only [List.foldl_nil]
    rw [h]
  | cons c cs2 ih =>
    intro m d F hdm hmg h
    rw [List.flatten_cons] at h
    have hm2 : m + c.length ≤ g.length := by
      have := congrArg List.length h
      simp only [List.length_append, List.length_take] at this
      omega
    have htake2 : g.take (m + c.length) = g.take m ++ c := take_extend hmg h
    have hbuf : (g.take m).drop d ++ c = (g.take (m + c.length)).drop d := by
      rw [htake2, drop_append_le _ _ _ (by rw [List.length_take]; omega)]
    have heq2 : g.take (m + c.length) ++ cs2.flatten = g := by
      rw [htake2, List.append_assoc]
      exact h
    rw [List.foldl_cons]
    show ∃ e, List.foldl feedChunk
        ((parseLoop ((g.take m).drop d ++ c)).1, F ++ (parseLoop ((g.take m).drop d ++ c)).2)
        cs2 = (g.drop e, F)
    rw [hbuf]
    rw [parseLoop_noSOI (noSOI_segment hg (m + c.length) d)]
    simp only [List.append_nil]
    by_cases hbig :
        2 * 1024 * 1024 < ((g.take (m + c.length)).drop d).length
    · rw [if_pos hbig]
      rw [List.drop_drop]
      have hd2 : d + (((g.take (m + c.length)).drop d).length - 4096) ≤ m + c.length := by
        rw [List.length_drop, List.length_take]
        omega
      exact ih (m + c.length) (d + (((g.take (m + c.length)).drop d).length - 4096)) F
        hd2 hm2 heq2
    · rw [if_neg hbig]
      exact ih (m + c.length) d F (by omega) hm2 heq2

/-- Feeding the chunks of one well-formed frame after a marker-free
residue: the parser ends with an empty accumulator and exactly that frame
extracted. -/
theorem feed_jpeg {j : List ℕ} (hj : WFJpeg j) :
    ∀ (cs : List (List ℕ)) (S : List ℕ) (k : ℕ) (F : List (List ℕ)),
      (∀ i, ¬ pairAt 255 216 S i) →
      (2 ≤ k → S = []) →
      k < j.length →
      j.take k ++ cs.flatten = j →
      (∀ c ∈ cs, c ≠ []) →
      List.foldl feedChunk (S ++ j.take k, F) cs = ([], F ++ [j]) := by
  intro cs
  induction cs with
  | nil =>
    intro S k F _ _ hklt h _
    exfalso
    simp only [List.flatten_nil, List.append_nil] at h
    have := congrArg List.length h
    rw [List.length_take] at this
    omega
  | cons c cs2 ih =>
    intro S k F hS hSk hklt h hne
    have hcne : c ≠ [] := hne c (List.mem_cons_self c cs2)
    have hclen : 1 ≤ c.length := List.length_pos.mpr hcne
    rw [List.flatten_cons] at h
    have hkle : k ≤ j.length := le_of_lt hklt
    have htake2 : j.take (k + c.length) = j.take k ++ c := take_extend hkle h
    have heq2 : j.take (k + c.length) ++ cs2.flatten = j := by
      rw [htake2, List.append_assoc]
      exact h
    rw [List.foldl_cons]
    show List.foldl feedChunk
        ((parseLoop (S ++ j.take k ++ c)).1, F ++ (parseLoop (S ++ j.take k ++ c)).2)
        cs2 = ([], F ++ [j])
    rw [List.append_assoc, ← htake2]
    rcases eq_or_ne cs2 [] with hcs2 | hcs2
    · subst hcs2
      simp only [List.flatten_nil, List.append_nil] at heq2
      have hjlen : j.length ≤ k + c.length := by
        have := congrArg List.length heq2
        rw [List.length_take] at this
        omega
      rw [List.take_of_length_le hjlen]
      rw [parseLoop_complete hS hj]
      simp
    · have hflat2 : cs2.flatten ≠ [] := flatten_ne_nil hcs2 fun d hd => hne d (List.mem_cons_of_mem c hd)
      have hk2lt : k + c.length < j.length := by
        have hlenj := congrArg List.length heq2
        rw [List.length_append, List.length_take] at hlenj
        have hfl : 0 < cs2.flatten.length := List.length_pos.mpr hflat2
        omega
      rcases le_or_lt 2 (k + c.length) with hk2ge | hk2lt2
      · have hP0 : (j.take (k + c.length))[0]? = some 255 := by
          rw [List.getElem?_take, if_pos (by omega)]
          exact WFJpeg_get0 hj
        have hP1 : (j.take (k + c.length))[1]? = some 216 := by
          rw [List.getElem?_take, if_pos (by omega)]
          exact WFJpeg_get1 hj
        have hnoEOI : ∀ i, ¬ pairAt 255 217 (j.take (k + c.length)) i := by
          intro i hp
          obtain ⟨hpj, hbound⟩ := pairAt_of_take hp
          exact WFJpeg_noEOI_before hj i (by omega) hpj
        rw [parseLoop_headOnly hS hP0 hP1 hnoEOI]
        simp only [List.append_nil]
        have := ih [] (k + c.length) F (fun i hp => by have := pairAt_bound hp; simp at this)
          (fun _ => rfl) hk2lt heq2 (fun d hd => hne d (List.mem_cons_of_mem c hd))
        rwa [List.nil_append] at this
      · have hk2 : k + c.length = 1 := by omega
        rw [hk2] at htake2 heq2 ⊢
        have hnoSOI : ∀ i, ¬ pairAt 255 216 (S ++ j.take 1) i := by
          intro i hp
          rcases pairAt_append_cases hp with hc | ⟨hlen, _, hy⟩ | ⟨hge, hc⟩
          · exact hS i hc
          · rw [List.getElem?_take, if_pos (by omega), WFJpeg_get0 hj] at hy
            exact absurd (Option.some.inj hy) (by omega)
          · have := pairAt_bound hc
            rw [List.length_take] at this
            omega
        rw [parseLoop_noSOI hnoSOI]
        simp only [List.append_nil]
        have hlen1 : (j.take 1).length = 1 := by
          rw [List.length_take]
          have := hj.1
          omega
        by_cases hbig : 2 * 1024 * 1024 < (S ++ j.take 1).length
        · rw [if_pos hbig]
          have hSlen : (S ++ j.take 1).length = S.length + 1 := by
            rw [List.length_append, hlen1]
          have hdle : (S ++ j.take 1).length - 4096 ≤ S.length := by omega
          rw [drop_append_le _ _ _ hdle]
          exact ih (S.drop ((S ++ j.take 1).length - 4096)) 1 F
            (fun i hp => by rw [pairAt_drop] at hp; exact hS _ hp)
            (fun hcon => absurd hcon (by omega)) (by have := hj.1; omega) heq2
            (fun d hd => hne d (List.mem_cons_of_mem c hd))
        · rw [if_neg hbig]
          exact ih S 1 F hS (fun hcon => absurd hcon (by omega)) (by have := hj.1; omega)
            heq2 (fun d hd => hne d (List.mem_cons_of_mem c hd))

theorem noSOI_replicate_zero (n : ℕ) : ∀ i, ¬ pairAt 255 216 (List.replicate n (0 : ℕ)) i := by
  intro i hp
  have h1 := hp.1
  rcases lt_or_ge i n with h | h
  · rw [List.getElem?_eq_getElem (by simpa using h)] at h1
    rw [List.getElem_replicate] at h1
    exact absurd (Option.some.inj h1) (by norm_num)
  · rw [List.getElem?_eq_none (by simpa using h)] at h1
    exact Option.noConfusion h1

/-- C4: after appending a chunk, an accumulator that contains no
start-of-image marker and exceeds 2 MiB is cut to its most recent 4 KiB,
and no frame is extracted; in particular a single 3 MiB marker-free read
leaves the accumulator at exactly 4096 bytes. -/
theorem claim4_buffer_bound :
    (∀ (buf chunk : List ℕ) (frames : List (List ℕ)),
      findPair 255 216 (buf ++ chunk) = none →
      2 * 1024 * 1024 < (buf ++ chunk).length →
      feedChunk (buf, frames) chunk =
        ((buf ++ chunk).drop ((buf ++ chunk).length - 4096), frames) ∧
      (feedChunk (buf, frames) chunk).1.length = 4096) ∧
    (feedAll [List.replicate (3 * 1024 * 1024) 0]).1.length ≤ 4096 := by
  constructor
  · intro buf chunk frames hnone hlen
    have hfc : feedChunk (buf, frames) chunk =
        ((buf ++ chunk).drop ((buf ++ chunk).length - 4096), frames) := by
      unfold feedChunk
      rw [parseLoop_noSOI ((findPair_eq_none_iff 255 216 (buf ++ chunk)).mp hnone)]
      rw [if_pos hlen]
      simp
    refine ⟨hfc, ?_⟩
    rw [hfc]
    simp only [List.length_drop]
    omega
  · unfold feedAll
    simp only [List.foldl_cons, List.foldl_nil]
    unfold feedChunk
    rw [List.nil_append]
    rw [parseLoop_noSOI (noSOI_replicate_zero (3 * 1024 * 1024))]
    rw [if_pos (by simp only [List.length_replicate]; norm_num)]
    simp only [List.length_drop, List.length_replicate]
    norm_num

/-- Witness for C4: a 2 MiB marker-free accumulator plus a 1 MiB
marker-free chunk is trimmed to exactly 4096 bytes. -/
theorem claim4_buffer_bound_witness :
    (feedChunk (List.replicate (2 * 1024 * 1024) 0, [])
      (List.replicate (1024 * 1024) 0)).1.length = 4096 := by
  have h1 : findPair 255 216
      (List.replicate (2 * 1024 * 1024) (0 : ℕ) ++ List.replicate (1024 * 1024) 0) = none := by
    rw [← List.replicate_add]
    exact (findPair_eq_none_iff _ _ _).mpr (noSOI_replicate_zero _)
  have h2 : 2 * 1024 * 1024 <
      (List.replicate (2 * 1024 * 1024) (0 : ℕ) ++ List.replicate (1024 * 1024) 0).length := by
    simp only [List.length_append, List.length_replicate]
    norm_num
  exact (claim4_buffer_bound.1 _ _ [] h1 h2).2

/-- C6 (amended): the parser output is independent of chunk boundaries.
One well-formed JPEG, split into arbitrary nonempty chunks and fed after
marker-free garbage itself fed in arbitrary chunks, is extracted exactly
once and exactly as it was sent, with the garbage discarded; taking the
garbage empty this is the pure chunk-splitting property. -/
theorem claim6_chunk_independence (g j : List ℕ) (gcs jcs : List (List ℕ))
    (hg : findPair 255 216 g = none) (hj : WFJpeg j)
    (hgf : gcs.flatten = g) (hjf : jcs.flatten = j)
    (hne : ∀ c ∈ jcs, c ≠ []) :
    feedAll (gcs ++ jcs) = ([], [j]) := by
  have hgall : ∀ i, ¬ pairAt 255 216 g i := (findPair_eq_none_iff 255 216 g).mp hg
  unfold feedAll
  rw [List.foldl_append]
  have hg0 : g.take 0 ++ gcs.flatten = g := by
    rw [List.take_zero, List.nil_append]
    exact hgf
  obtain ⟨e, he⟩ := feed_garbage hgall gcs 0 0 [] (le_refl 0) (Nat.zero_le _) hg0
  simp only [List.take_zero, List.drop_nil] at he
  rw [he]
  have hm := feed_jpeg hj jcs (g.drop e) 0 []
    (fun i hp => by rw [pairAt_drop] at hp; exact hgall _ hp)
    (fun hcon => absurd hcon (by norm_num))
    (by have := hj.1; omega)
    (by rw [List.take_zero, List.nil_append]; exact hjf)
    hne
  rw [List.take_zero, List.append_nil, List.nil_append] at hm
  exact hm

/-- Counterexample for C6 as stated: two garbage bytes FF D8 (a stray
start-of-image marker) ahead of a well-formed JPEG are not discarded —
the extracted frame is the garbage plus the JPEG, not the JPEG. -/
theorem claim6_counterexample :
    WFJpeg [255, 216, 0, 0, 255, 217] ∧
    (feedAll [[255, 216], [255, 216, 0, 0, 255, 217]]).2 ≠
      [[255, 216, 0, 0, 255, 217]] := by
  constructor
  · decide
  · have e1 : parseLoop [255, 216] = ([255, 216], []) := by
      rw [@parseLoop_eq_noEOI [255, 216] 0 (by decide) (by decide)]
      rfl
    have e0 : parseLoop (([255, 216, 255, 216, 0, 0, 255, 217] : List ℕ).drop (6 + 2)) =
        ([], []) := by
      rw [show (([255, 216, 255, 216, 0, 0, 255, 217] : List ℕ).drop (6 + 2)) = [] from rfl]
      rw [parseLoop_eq_none (by decide)]
      rfl
    have e2 : parseLoop [255, 216, 255, 216, 0, 0, 255, 217] =
        ([], [[255, 216, 255, 216, 0, 0, 255, 217]]) := by
      rw [@parseLoop_eq_frame [255, 216, 255, 216, 0, 0, 255, 217] 0 6 (by decide) (by decide),
        e0]
      rfl
    unfold feedAll
    simp only [List.foldl_cons, List.foldl_nil]
    unfold feedChunk
    simp only [List.nil_append, e1]
    rw [show ([255, 216] : List ℕ) ++ [255, 216, 0, 0, 255, 217] =
        [255, 216, 255, 216, 0, 0, 255, 217] from rfl]
    rw [e2]
    decide

/-- Witness for C6 (amended): marker-free garbage 01 02 in two chunks,
then a six-byte JPEG in three chunks, yields exactly that JPEG. -/
theorem claim6_chunk_independence_witness :
    feedAll ([[1], [2]] ++ [[255], [216, 5], [6, 255, 217]]) =
      ([], [[255, 216, 5, 6, 255, 217]]) :=
  claim6_chunk_independence [1, 2] [255, 216, 5, 6, 255, 217]
    [[1], [2]] [[255], [216, 5], [6, 255, 217]]
    (by decide) (by decide) (by decide) (by decide) (by decide)

/-! ## The acquisition loop (`src/camera.py`, `CameraStream._loop`) -/

/-- Python exceptions relevant to the acquisition loop. -/
inductive PyExc
  | readError
  | initError
  | attrError
deriving DecidableEq, Repr

/-- Outcomes the environment supplies to one loop iteration: what
`impl.read()` does when a backend is open, whether `impl.stop()` raises,
and what `_init_impl()` (backend selection) does on this attempt. -/
structure IterOracle where
  readRes : Except PyExc (List ℕ)
  stopRaises : Bool
  initRes : Except PyExc Unit

/-- The state of `CameraStream` as the loop touches it. -/
structure LoopState where
  running : Bool
  implOpen : Bool
  frame : Option (List ℕ)
deriving DecidableEq

/-- Observable actions of one iteration, in order.  The pacing sleep at
the bottom of the body depends only on wall-clock time and is elided. -/
inductive LoopAction
  | readOk
  | implStop
  | sleepReconnect
  | initTry
deriving DecidableEq, Repr

/-- The try block of the loop body (camera.py lines 123-126): read a
frame from the backend — an `AttributeError` when `impl` is `None` after
a failed re-init — and publish it into the cache slot. -/
def loopTryBody (o : IterOracle) (s : LoopState) : Except PyExc LoopState :=
  match (if s.implOpen then o.readRes else Except.error PyExc.attrError) with
  | Except.error e => Except.error e
  | Except.ok f => Except.ok { s with frame := some f }

/-- The except handler (camera.py lines 127-139): stop the backend with
any error swallowed, set `impl = None`, sleep the reconnect delay, then
re-run backend selection; when selection raises, log and sleep again.
Both inner try/except blocks swallow their exception, so the handler is
total. -/
def loopHandler (o : IterOracle) (s : LoopState) : LoopState × List LoopAction :=
  match o.initRes with
  | Except.ok _ =>
    ({ s with implOpen := true },
      [LoopAction.implStop, LoopAction.sleepReconnect, LoopAction.initTry])
  | Except.error _ =>
    ({ s with implOpen := false },
      [LoopAction.implStop, LoopAction.sleepReconnect, LoopAction.initTry,
        LoopAction.sleepReconnect])

/-- One iteration of the while body: the try block runs and
`except Exception` routes every failure into the handler.  An `.error`
result here would be an exception escaping the body. -/
def loopBody (o : IterOracle) (s : LoopState) : Except PyExc (LoopState × List LoopAction) :=
  match loopTryBody o s with
  | Except.ok s2 => Except.ok (s2, [LoopAction.readOk])
  | Except.error _ => Except.ok (loopHandler o s)

/-- The while loop (camera.py lines 121-142): it iterates while
`_running` is set, and an exception escaping the body would abort the
thread, ending the trace early. -/
def runLoop : List IterOracle → LoopState → LoopState × List (List LoopAction)
  | [], s => (s, [])
  | o :: os, s =>
    if s.running then
      match loopBody o s with
      | Except.ok (s2, acts) => ((runLoop os s2).1, acts :: (runLoop os s2).2)
      | Except.error _ => (s, [])
    else (s, [])

theorem runLoop_cons (o : IterOracle) (os : List IterOracle) (s : LoopState) :
    runLoop (o :: os) s =
      if s.running then
        match loopBody o s with
        | Except.ok (s2, acts) => ((runLoop os s2).1, acts :: (runLoop os s2).2)
        | Except.error _ => (s, [])
      else (s, []) := rfl

theorem loopBody_ok (o : IterOracle) (s : LoopState) :
    ∃ s2 acts, loopBody o s = Except.ok (s2, acts) ∧ s2.running = s.running := by
  unfold loopBody loopTryBody loopHandler
  cases hi : (if s.implOpen then o.readRes else Except.error PyExc.attrError) with
  | ok f => exact ⟨_, _, rfl, rfl⟩
  | error e =>
    cases o.initRes with
    | ok u => exact ⟨_, _, rfl, rfl⟩
    | error e2 => exact ⟨_, _, rfl, rfl⟩

/-- C5: a read failure never escapes the loop and never ends it: the body
always returns normally, a failing read routes through the handler —
which closes the backend, sleeps the reconnect delay and retries backend
selection — `_running` is untouched, and the loop performs one iteration
per oracle entry no matter how many of them fail, with no retry limit. -/
theorem claim5_fault_tolerance :
    (∀ (os : List IterOracle) (s : LoopState), s.running = true →
      (runLoop os s).1.running = true ∧ (runLoop os s).2.length = os.length) ∧
    (∀ (o : IterOracle) (s : LoopState) (e : PyExc), o.readRes = Except.error e →
      loopBody o s = Except.ok (loopHandler o s) ∧
      (loopHandler o s).1.running = s.running ∧
      LoopAction.implStop ∈ (loopHandler o s).2 ∧
      LoopAction.sleepReconnect ∈ (loopHandler o s).2 ∧
      LoopAction.initTry ∈ (loopHandler o s).2) := by
  constructor
  · intro os
    induction os with
    | nil =>
      intro s hs
      exact ⟨hs, rfl⟩
    | cons o os2 ih =>
      intro s hs
      obtain ⟨s2, acts, hb, hr⟩ := loopBody_ok o s
      rw [runLoop_cons, if_pos hs, hb]
      obtain ⟨ih1, ih2⟩ := ih s2 (by rw [hr, hs])
      exact ⟨ih1, by simp [ih2]⟩
  · intro o s e he
    have hbody : loopBody o s = Except.ok (loopHandler o s) := by
      unfold loopBody loopTryBody
      cases hio : s.implOpen with
      | true => rw [if_pos rfl, he]
      | false => rw [if_neg (by simp)]
    refine ⟨hbody, ?_, ?_, ?_, ?_⟩ <;> unfold loopHandler <;> cases o.initRes <;> simp

/-- Witness for C5: one iteration whose read fails leaves the loop
running and produces exactly one iteration trace. -/
theorem claim5_fault_tolerance_witness :
    (runLoop [IterOracle.mk (Except.error PyExc.readError) false (Except.ok ())]
      (LoopState.mk true true none)).1.running = true ∧
    (runLoop [IterOracle.mk (Except.error PyExc.readError) false (Except.ok ())]
      (LoopState.mk true true none)).2.length = 1 :=
  claim5_fault_tolerance.1 _ _ rfl

/-! ## The single-slot frame cache
(`get_frame` in `src/camera.py` lines 144-146 and `src/camera_rpicam.py`
lines 205-207) -/

/-- A heap of pixel buffers: Python objects live at addresses, and a
variable or attribute stores an address. -/
structure Heap where
  bufs : List (List ℕ)
deriving DecidableEq

/-- Allocate a fresh buffer (a `.copy()` or a newly produced frame) and
return its address. -/
def Heap.alloc (h : Heap) (b : List ℕ) : Heap × ℕ :=
  ({ bufs := h.bufs ++ [b] }, h.bufs.length)

/-- Contents stored at an address. -/
def Heap.read (h : Heap) (a : ℕ) : List ℕ :=
  (h.bufs[a]?).getD []

/-- In-place mutation of the buffer at an address. -/
def Heap.write (h : Heap) (a : ℕ) (b : List ℕ) : Heap :=
  { bufs := h.bufs.set a b }

/-- The cache-relevant state of a stream object: the heap plus
`self._frame` — `None` before the first publish, else an address. -/
structure CacheState where
  heap : Heap
  frameRef : Option ℕ
deriving DecidableEq

/-- The writer publishes a newly produced frame (camera.py line 126):
the backend read allocated the buffer, and its address is stored. -/
def publishFrame (s : CacheState) (b : List ℕ) : CacheState :=
  { heap := (s.heap.alloc b).1, frameRef := some (s.heap.alloc b).2 }

/-- `get_frame`: `None` when `self._frame is None`, otherwise
`self._frame.copy()` — a fresh allocation holding the same pixels. -/
def get_frame (s : CacheState) : CacheState × Option ℕ :=
  match s.frameRef with
  | none => (s, none)
  | some a =>
    ({ heap := (s.heap.alloc (s.heap.read a)).1, frameRef := s.frameRef },
      some (s.heap.alloc (s.heap.read a)).2)

/-- A reader mutating a buffer through an address it received. -/
def mutateBuf (s : CacheState) (a : ℕ) (b : List ℕ) : CacheState :=
  { s with heap := s.heap.write a b }

/-- The pixels a `get_frame` call hands out: the contents of the cached
buffer, of which the returned buffer is a fresh copy. -/
def cachedVal (s : CacheState) : Option (List ℕ) :=
  s.frameRef.map s.heap.read

/-- C7: before the first publish `get_frame` returns the explicit empty
value, and afterwards it returns a fresh address distinct from the cached
one, so mutating the returned buffer never changes what any subsequent
`get_frame` returns and a reader can never mutate the buffer the writer
holds. -/
theorem claim7_defensive_copy :
    (∀ s : CacheState, s.frameRef = none → get_frame s = (s, none)) ∧
    (∀ (s : CacheState) (a0 anew : ℕ) (s2 : CacheState) (b : List ℕ),
      s.frameRef = some a0 → a0 < s.heap.bufs.length →
      get_frame s = (s2, some anew) →
      anew ≠ a0 ∧ cachedVal (mutateBuf s2 anew b) = cachedVal s) := by
  constructor
  · intro s hs
    unfold get_frame
    rw [hs]
  · intro s a0 anew s2 b hs ha heq
    have hgf : get_frame s =
        ({ heap := (s.heap.alloc (s.heap.read a0)).1, frameRef := some a0 },
          some (s.heap.alloc (s.heap.read a0)).2) := by
      unfold get_frame
      rw [hs]
    rw [hgf] at heq
    injection heq with h1 h2
    injection h2 with h2
    have haddr : anew = s.heap.bufs.length := h2.symm
    subst h1
    constructor
    · omega
    · unfold cachedVal mutateBuf Heap.write Heap.alloc Heap.read
      rw [hs]
      simp only [Option.map_some']
      congr 1
      rw [List.getElem?_set_ne (by omega : anew ≠ a0)]
      rw [List.getElem?_append_left ha]

/-- Witness for C7: a one-buffer cache; mutating the copy returned by
`get_frame` leaves the cached pixels unchanged. -/
theorem claim7_defensive_copy_witness :
    (1 : ℕ) ≠ 0 ∧
    cachedVal (mutateBuf (CacheState.mk (Heap.mk [[1, 2], [1, 2]]) (some 0)) 1 [9]) =
      cachedVal (CacheState.mk (Heap.mk [[1, 2]]) (some 0)) :=
  claim7_defensive_copy.2 (CacheState.mk (Heap.mk [[1, 2]]) (some 0)) 0 1
    (CacheState.mk (Heap.mk [[1, 2], [1, 2]]) (some 0)) [9] rfl (by decide) rfl

/-! ## `stop` on the capture backends (`src/camera.py`) -/

/-- Open or closed status of an underlying device handle. -/
inductive DevSt
  | devOpen
  | devClosed
deriving DecidableEq, Repr

/-- The underlying `picamera2` object: its handle status, plus whether
its `stop()` raises in the current situation (stopping a camera that
never started may raise). -/
structure PiCamDev where
  st : DevSt
  stopRaises : Bool
deriving DecidableEq, Repr

/-- Model of `Picamera2.stop()`: the handle is relinquished, and an
exception may additionally be raised during the teardown. -/
def picam2_stop (d : PiCamDev) : PiCamDev × Option PyExc :=
  ({ d with st := DevSt.devClosed },
    if d.stopRaises then some PyExc.readError else none)

/-- Python `try: body except Exception: pass`: keep the effect of the
body and discard its exception, if any. -/
def tryPass {α : Type} (body : α × Option PyExc) : α × Option PyExc :=
  (body.1, none)

/-- `_PiCam2Wrapper.stop` (camera.py lines 36-40): the stop call wrapped
in try/except-pass. -/
def piCam2Wrapper_stop (d : PiCamDev) : PiCamDev × Option PyExc :=
  tryPass (picam2_stop d)

/-- The underlying `cv2.VideoCapture` object. -/
structure CvCap where
  st : DevSt
  releaseRaises : Bool
deriving DecidableEq, Repr

/-- Model of `cv2.VideoCapture.release()`. -/
def cap_release (c : CvCap) : CvCap × Option PyExc :=
  ({ c with st := DevSt.devClosed },
    if c.releaseRaises then some PyExc.readError else none)

/-- `_OpenCVCamWrapper.stop` (camera.py lines 73-77): the release call
wrapped in try/except-pass. -/
def openCVWrapper_stop (c : CvCap) : CvCap × Option PyExc :=
  tryPass (cap_release c)

/-- The state `CameraStream.stop` manipulates: the running flag and the
optional backend. -/
structure StreamState (β : Type) where
  running : Bool
  impl : Option β
deriving DecidableEq

/-- `CameraStream.stop` (camera.py lines 148-156): clear `_running`, join
the loop thread with a bounded timeout (no state effect here), then stop
the backend behind a try/except guard that also tolerates `impl` being
`None` before a successful open. -/
def cameraStream_stop {β : Type} (implStop : β → β × Option PyExc)
    (s : StreamState β) : StreamState β × Option PyExc :=
  match s.impl with
  | none => ({ running := false, impl := none }, none)
  | some b => ({ running := false, impl := some (tryPass (implStop b)).1 }, none)

/-- C9: every stop path returns without an exception in every state,
leaves the device handle closed and the stream stopped, and calling it a
second time changes nothing. -/
theorem claim9_stop_idempotent :
    (∀ d : PiCamDev, (piCam2Wrapper_stop d).2 = none ∧
      (piCam2Wrapper_stop d).1.st = DevSt.devClosed ∧
      piCam2Wrapper_stop (piCam2Wrapper_stop d).1 = piCam2Wrapper_stop d) ∧
    (∀ c : CvCap, (openCVWrapper_stop c).2 = none ∧
      (openCVWrapper_stop c).1.st = DevSt.devClosed ∧
      openCVWrapper_stop (openCVWrapper_stop c).1 = openCVWrapper_stop c) ∧
    (∀ s : StreamState PiCamDev,
      (cameraStream_stop piCam2Wrapper_stop s).2 = none ∧
      (cameraStream_stop piCam2Wrapper_stop s).1.running = false ∧
      cameraStream_stop piCam2Wrapper_stop (cameraStream_stop piCam2Wrapper_stop s).1 =
        cameraStream_stop piCam2Wrapper_stop s) ∧
    (∀ s : StreamState CvCap,
      (cameraStream_stop openCVWrapper_stop s).2 = none ∧
      (cameraStream_stop openCVWrapper_stop s).1.running = false ∧
      cameraStream_stop openCVWrapper_stop (cameraStream_stop openCVWrapper_stop s).1 =
        cameraStream_stop openCVWrapper_stop s) := by
  refine ⟨?_, ?_, ?_, ?_⟩
  · intro d
    exact ⟨rfl, rfl, rfl⟩
  · intro c
    exact ⟨rfl, rfl, rfl⟩
  · intro s
    rcases s with ⟨r, impl⟩
    cases impl with
    | none => exact ⟨rfl, rfl, rfl⟩
    | some b => exact ⟨rfl, rfl, rfl⟩
  · intro s
    rcases s with ⟨r, impl⟩
    cases impl with
    | none => exact ⟨rfl, rfl, rfl⟩
    | some b => exact ⟨rfl, rfl, rfl⟩

/-! ## The fps coercion
(`CameraStream.__init__`, camera.py line 89 and camera_spoof.py line 21) -/

/-- `self.fps = max(1, int(fps))`. -/
def cameraStream_fps (fps : ℚ) : ℤ :=
  max 1 (pyInt fps)

/-- `dt = 1.0 / self.fps` (camera.py line 120; camera_spoof.py line 45
computes the same `target_dt`). -/
def loop_dt (fps : ℚ) : ℚ :=
  1 / (cameraStream_fps fps : ℚ)

/-- C10: whatever fps value reaches the constructor, the stored rate is
`max(1, int(fps))`, hence at least 1 and never zero, so the pacing
computation `1.0 / fps` cannot divide by zero and the target period is at
most one second. -/
theorem claim10_fps_floor : ∀ fps : ℚ,
    cameraStream_fps fps = max 1 (pyInt fps) ∧
    1 ≤ cameraStream_fps fps ∧
    (cameraStream_fps fps : ℚ) ≠ 0 ∧
    loop_dt fps ≤ 1 := by
  intro fps
  have h1 : 1 ≤ cameraStream_fps fps := le_max_left 1 (pyInt fps)
  have h1q : (1 : ℚ) ≤ (cameraStream_fps fps : ℚ) := by exact_mod_cast h1
  refine ⟨rfl, h1, ?_, ?_⟩
  · intro hcon
    rw [hcon] at h1q
    norm_num at h1q
  · unfold loop_dt
    rw [div_le_one (by linarith)]
    exact h1q
